import Mathlib

/-!
Verification of the incremental-feed state machine of `rss_to_signal/main.py`.

The script is embedded shallowly: pure logic is translated directly; the
external effects (HTTP fetches via httpx/feedparser, `dateutil.parser.parse`,
`mimetypes.guess_extension`, temporary-file naming, and running the external
`signal-cli` command) are modelled as oracle functions collected in `World`.
Timestamps are modelled as integers on an absolute timeline: comparison of
timezone-aware datetimes is comparison of instants.
-/

/-- A datetime as Python sees it: a local clock reading plus an optional
UTC-offset (`tzinfo`); `none` models a naive datetime. -/
structure DateTime where
  clock : Int
  tz : Option Int
  deriving Repr, DecidableEq

/-- The absolute instant denoted by an aware datetime (naive treated as UTC,
which only arises here after an explicit `replace`). -/
def DateTime.instant (d : DateTime) : Int := d.clock - (d.tz.getD 0)

/-- Embeds `start_date.replace(tzinfo=datetime.timezone.utc)`: keep the clock
reading, set the zone to UTC. -/
def replaceUtc (d : DateTime) : DateTime := ⟨d.clock, some 0⟩

/-- One feed item as the script consumes it: `published` is the raw timestamp
string (re-parsed via `dateutil`), `publishedParsed` abstracts the feed
library's native `published_parsed` sort key (a `time.struct_time`, totally
ordered). -/
structure Entry where
  link : String
  title : String
  description : String
  published : String
  publishedParsed : Int
  deriving Repr, DecidableEq

/-- A destination record from the config: `dest.get("enabled", True)` plus the
three optional identifying fields. -/
structure Dest where
  enabled : Option Bool
  phone : Option String
  username : Option String
  group : Option String
  deriving Repr, DecidableEq

/-- The persisted state document: `latest_processed_entry_date` (as an
instant), `etag`, and `modified` (parsed). -/
structure PersistedState where
  lped : Option Int
  etag : Option String
  modified : Option Int
  deriving Repr, DecidableEq

/-- Embeds `try: state = json.load(...) except FileNotFoundError: state = {}`:
an absent file yields the empty state, never an error. -/
def loadState (file : Option PersistedState) : PersistedState :=
  file.getD ⟨none, none, none⟩

/-- The parsed `<meta property="og:image">` content of a page: `none` models a
missing tag or a falsy `content` attribute. -/
structure Page where
  ogImage : Option String
  deriving Repr, DecidableEq

/-- The image response's `content-type` header (`""` when absent, matching
`resp.headers.get("content-type", "")`). -/
structure ImageResp where
  contentType : String
  deriving Repr, DecidableEq

/-- The result of `feedparser.parse`: HTTP status, entry list, and the
server's optional `etag` / raw `modified` values. -/
structure FeedDoc where
  status : Nat
  entries : List Entry
  etag : Option String
  modifiedRaw : Option String
  deriving Repr, DecidableEq

/-- Oracles for the script's external effects. `fetchPage`/`fetchImage` model
`httpx` GET plus `raise_for_status` (`Except.error` = network error, timeout,
or non-success status — i.e. a raised exception). `runCmd` models
`subprocess.run(cmd, shell=True)` returning exit-status-zero. `parseDate`
models `dateutil.parser.parse` yielding an absolute instant. -/
structure World where
  fetchPage : String → Except String Page
  fetchImage : String → Except String ImageResp
  guessExt : String → Option String
  tempFile : String → String
  runCmd : String → Bool
  parseDate : String → Int

/-- Embeds `get_og_image`: fetch the page (errors propagate — there is no
handler in the source), look for the og:image tag, fetch the image (errors
propagate), pick a suffix from the content type or the URL's last four
characters, write a temp file and return its name. -/
def get_og_image (w : World) (url : String) : Except String (Option String) :=
  match w.fetchPage url with
  | .error m => .error m
  | .ok page =>
    match page.ogImage with
    | none => .ok none
    | some imgUrl =>
      match w.fetchImage imgUrl with
      | .error m => .error m
      | .ok resp =>
        let ct := ((resp.contentType.splitOn ";").headD "").trim
        let suffix := (w.guessExt ct).getD (imgUrl.takeRight 4)
        .ok (some (w.tempFile suffix))

/-- An exception propagating out of entry processing. -/
inductive RunError where
  | fetchFail (msg : String)
  | dispatchFail (cmd : String)
  deriving Repr, DecidableEq

/-- The observable outcome of processing one entry: the commands announced
("About to notify"), the commands actually executed, and the exception that
aborted processing, if any. -/
structure EntryOutcome where
  invocations : List String
  executed : List String
  error : Option RunError
  deriving Repr, DecidableEq

/-- Embeds the destination-selection branch of `process_entry`: phone, then
`-u username`, then `-g group`; `none` when no identifying field is present. -/
def destPart (d : Dest) : Option String :=
  match d.phone, d.username, d.group with
  | some p, _, _ => some p
  | none, some u, _ => some ("-u " ++ u)
  | none, none, some g => some ("-g " ++ g)
  | none, none, none => none

/-- Embeds the `for dest in dests` loop of `process_entry`: skip disabled and
address-less destinations, build the command, report it, and either skip
execution (dry run) or run it, raising `CalledProcessError` on failure, which
stops the loop. -/
def runDests (w : World) (cmd0 : String) (dry : Bool) : List Dest → EntryOutcome
  | [] => ⟨[], [], none⟩
  | d :: rest =>
    if (d.enabled.getD true) = false then runDests w cmd0 dry rest
    else
      match destPart d with
      | none => runDests w cmd0 dry rest
      | some dp =>
        let cmd := cmd0 ++ " " ++ dp
        if dry then
          let r := runDests w cmd0 dry rest
          ⟨cmd :: r.invocations, r.executed, r.error⟩
        else if w.runCmd cmd then
          let r := runDests w cmd0 dry rest
          ⟨cmd :: r.invocations, cmd :: r.executed, r.error⟩
        else ⟨[cmd], [], some (RunError.dispatchFail cmd)⟩

/-- The base command string built by `process_entry` before the image part and
the destination part are appended. -/
def entryCmd (signal_cmd : Option String) (e : Entry) (img_part : String) : String :=
  (signal_cmd.getD "signal-cli") ++ " send -m " ++ e.link ++ " --preview-url " ++ e.link
    ++ " --preview-title \"" ++ e.title ++ "\" --preview-description \"" ++ e.description
    ++ "\"" ++ img_part

/-- Embeds `process_entry`: obtain the preview image (an exception here
propagates to the caller), build the command, and dispatch to each
destination. -/
def process_entry (w : World) (entry : Entry) (dests : List Dest) (dry_run : Bool)
    (signal_cmd : Option String) : EntryOutcome :=
  match get_og_image w entry.link with
  | .error m => ⟨[], [], some (RunError.fetchFail m)⟩
  | .ok og =>
    let img_part := match og with
      | some p => " --preview-image \"" ++ p ++ "\""
      | none => ""
    runDests w (entryCmd signal_cmd entry img_part) dry_run dests

/-- The eligibility test of the main loop:
`(latest_processed_entry_date is None or e_date > latest_processed_entry_date)
 and (start_date is None or e_date > start_date.replace(tzinfo=utc))`. -/
def eligible (eDate : Int) (latest : Option Int) (start_date : Option DateTime) : Bool :=
  (match latest with
    | none => true
    | some l => decide (eDate > l)) &&
  (match start_date with
    | none => true
    | some s => decide (eDate > (replaceUtc s).instant))

/-- The comparison relation of `sorted(d.entries, key=lambda x: x.published_parsed)`. -/
def keyLe (a b : Entry) : Prop := a.publishedParsed ≤ b.publishedParsed

instance : DecidableRel keyLe := fun a b => inferInstanceAs (Decidable (a.publishedParsed ≤ b.publishedParsed))

instance : IsTotal Entry keyLe := ⟨fun a b => Int.le_total a.publishedParsed b.publishedParsed⟩

instance : IsTrans Entry keyLe := ⟨fun _ _ _ h h2 => le_trans h h2⟩

/-- Embeds `sorted(d.entries, key=lambda x: x.published_parsed)`: Python's
`sorted` is the stable ascending sort by the key, which insertion sort with
`keyLe` computes. -/
def sortEntries (l : List Entry) : List Entry := List.insertionSort keyLe l

/-- The accumulated trace of the main entry loop: the in-memory state at the
end, every `dump_state` call's content in order, the entries handed to
`process_entry`, the entries fully and successfully notified, the announced
and executed commands, and the exception that aborted the loop, if any. -/
structure LoopResult where
  state : PersistedState
  writes : List PersistedState
  processed : List Entry
  notified : List Entry
  invocations : List String
  executed : List String
  error : Option RunError
  deriving Repr, DecidableEq

/-- Embeds `if state.get(LPED) is None or e_date > state[LPED]:
state[LPED] = e_date` — advance the in-memory watermark only when the entry's
date strictly exceeds it (or it is absent). -/
def advanceWm (st : PersistedState) (eDate : Int) : PersistedState :=
  match st.lped with
  | none => { st with lped := some eDate }
  | some l => if eDate > l then { st with lped := some eDate } else st

/-- Embeds the `for e in sorted(d.entries, ...)` loop of `main`: eligibility is
checked against the watermark unpacked before the loop (`latest`), the state's
watermark is advanced only when strictly greater, and the state is dumped
immediately after each processed entry, before the next one. -/
def processLoop (w : World) (dests : List Dest) (dry : Bool) (sig : Option String)
    (latest : Option Int) (start_date : Option DateTime) :
    PersistedState → List Entry → LoopResult
  | st, [] => ⟨st, [], [], [], [], [], none⟩
  | st, e :: rest =>
    let eDate := w.parseDate e.published
    if eligible eDate latest start_date then
      let eo := process_entry w e dests dry sig
      match eo.error with
      | some err => ⟨st, [], [e], [], eo.invocations, eo.executed, some err⟩
      | none =>
        let st' := advanceWm st eDate
        let r := processLoop w dests dry sig latest start_date st' rest
        ⟨r.state, st' :: r.writes, e :: r.processed, e :: r.notified,
          eo.invocations ++ r.invocations, eo.executed ++ r.executed, r.error⟩
    else
      processLoop w dests dry sig latest start_date st rest

/-- Python truthiness of an optional string (`if d.etag:`): absent or empty is
falsy. -/
def pyTruthy : Option String → Bool
  | none => false
  | some s => !(s == "")

/-- The observable outcome of one run of `main`. -/
structure MainResult where
  state : PersistedState
  writes : List PersistedState
  processed : List Entry
  notified : List Entry
  invocations : List String
  executed : List String
  error : Option RunError
  deriving Repr, DecidableEq

/-- Embeds the tail of `main`: `if d.etag: state["etag"] = d.etag` and
`if d.modified: state["modified"] = parse(d.modified)` — each cache-token half
is updated only when the response carries a truthy value for it. -/
def tokUpdate (w : World) (d : FeedDoc) (st : PersistedState) : PersistedState :=
  let st1 := if pyTruthy d.etag then { st with etag := d.etag } else st
  match d.modifiedRaw with
  | some s => if s == "" then st1 else { st1 with modified := some (w.parseDate s) }
  | none => st1

/-- Embeds `main`: load state (empty if absent), return immediately on a 304
with nothing written, otherwise run the entry loop over the sorted entries;
if the loop raised, the exception propagates with no further writes; otherwise
update each cache-token half only when the response carries a truthy value and
dump the state one final time. -/
def main_run (w : World) (dests : List Dest) (signal_cmd : Option String)
    (start_date : Option DateTime) (skip_signal : Bool)
    (stateFile : Option PersistedState) (d : FeedDoc) : MainResult :=
  let state := loadState stateFile
  let latest := state.lped
  if d.status = 304 then ⟨state, [], [], [], [], [], none⟩
  else
    let r := processLoop w dests skip_signal signal_cmd latest start_date state
      (sortEntries d.entries)
    match r.error with
    | some err =>
      ⟨r.state, r.writes, r.processed, r.notified, r.invocations, r.executed, some err⟩
    | none =>
      let st2 := tokUpdate w d r.state
      ⟨st2, r.writes ++ [st2], r.processed, r.notified, r.invocations, r.executed, none⟩

/-- The entry loop that a non-304 run of `main` performs, as a function of the
run's inputs. -/
def loopOf (w : World) (dests : List Dest) (signal_cmd : Option String)
    (start_date : Option DateTime) (skip_signal : Bool)
    (stateFile : Option PersistedState) (d : FeedDoc) : LoopResult :=
  processLoop w dests skip_signal signal_cmd (loadState stateFile).lped start_date
    (loadState stateFile) (sortEntries d.entries)

/-- Spec-side: how one successfully notified entry advances a watermark
("advance only if strictly greater" is the same as taking the max). -/
def wmAfter (o : Option Int) (eDate : Int) : Option Int :=
  match o with
  | none => some eDate
  | some l => some (max l eDate)

/-- Spec-side: the watermark values of the successive per-entry checkpoints
produced by a run that starts at watermark `a` and notifies entries with the
given dates in order. -/
def prefixFolds (a : Option Int) : List Int → List (Option Int)
  | [] => []
  | d :: ds => wmAfter a d :: prefixFolds (wmAfter a d) ds

/-- Spec-side: the maximum publication instant among a list of entries
(`none` for the empty list). -/
def maxOfDates (w : World) (l : List Entry) : Option Int :=
  List.foldl wmAfter none (l.map (fun e => w.parseDate e.published))

/-- Ordering on optional watermarks: an absent watermark precedes everything. -/
def optLe : Option Int → Option Int → Prop
  | none, _ => True
  | some _, none => False
  | some a, some b => a ≤ b

/-- The watermark in the state file once a sequence of `dump_state` calls is
over: the last write's value, or the prior file's watermark when nothing was
written. -/
def finalLped (ws : List PersistedState) (wm0 : Option Int) : Option Int :=
  match ws.getLast? with
  | some s => s.lped
  | none => wm0

/-- Spec-side eligibility predicate, in the spec's words: selected iff the
watermark is absent or the date strictly exceeds it, and the floor instant is
absent or the date strictly exceeds it. -/
def specEligible (w : World) (wm0 : Option Int) (floorDate : Option Int) (e : Entry) : Bool :=
  (match wm0 with
    | none => true
    | some l => decide (w.parseDate e.published > l)) &&
  (match floorDate with
    | none => true
    | some f => decide (w.parseDate e.published > f))

/-- Strict lower bound on an optional watermark: holds vacuously when the
watermark is absent. -/
def optLt (o : Option Int) (d : Int) : Prop :=
  match o with
  | none => True
  | some l => l < d

theorem optLe_none (b : Option Int) : optLe none b := trivial

theorem optLe_refl (a : Option Int) : optLe a a := by
  cases a <;> simp [optLe]

theorem optLe_trans {a b c : Option Int} (h1 : optLe a b) (h2 : optLe b c) : optLe a c := by
  cases a with
  | none => trivial
  | some x =>
    cases b with
    | none => exact h1.elim
    | some y =>
      cases c with
      | none => exact h2.elim
      | some z => exact le_trans h1 h2

theorem optLe_wmAfter (a : Option Int) (d : Int) : optLe a (wmAfter a d) := by
  cases a <;> simp [optLe, wmAfter]

theorem le_wmAfter (a : Option Int) (d : Int) : optLe (some d) (wmAfter a d) := by
  cases a <;> simp [optLe, wmAfter]

theorem wmAfter_isSome (a : Option Int) (d : Int) : (wmAfter a d).isSome := by
  cases a <;> simp [wmAfter]

theorem optLe_foldl_wmAfter (a : Option Int) (ds : List Int) :
    optLe a (List.foldl wmAfter a ds) := by
  induction ds generalizing a with
  | nil => exact optLe_refl a
  | cons d ds ih => exact optLe_trans (optLe_wmAfter a d) (ih (wmAfter a d))

theorem mem_le_foldl_wmAfter {x : Int} {ds : List Int} (a : Option Int) (hx : x ∈ ds) :
    optLe (some x) (List.foldl wmAfter a ds) := by
  induction ds generalizing a with
  | nil => cases hx
  | cons d ds ih =>
    rcases List.mem_cons.mp hx with h | h
    · subst h
      exact optLe_trans (le_wmAfter a x) (optLe_foldl_wmAfter (wmAfter a x) ds)
    · exact ih (wmAfter a d) h

theorem foldl_wmAfter_of_lt {a : Option Int} {ds : List Int}
    (h : ∀ x ∈ ds, optLt a x) :
    List.foldl wmAfter a ds = if ds.isEmpty then a else List.foldl wmAfter none ds := by
  cases a with
  | none => cases ds <;> simp
  | some l =>
    cases ds with
    | nil => simp
    | cons d ds =>
      have hd : l < d := h d (List.mem_cons_self d ds)
      have hw : wmAfter (some l) d = wmAfter none d := by
        simp [wmAfter, max_eq_right (le_of_lt hd)]
      simp [List.foldl_cons, hw]

theorem chain_prefixFolds (a : Option Int) (ds : List Int) :
    List.Chain' optLe (a :: prefixFolds a ds) := by
  induction ds generalizing a with
  | nil => simp [prefixFolds]
  | cons d ds ih =>
    simp only [prefixFolds]
    exact List.Chain'.cons (optLe_wmAfter a d) (ih (wmAfter a d))

theorem chain_prefixFolds_final (a : Option Int) (ds : List Int) :
    List.Chain' optLe (a :: (prefixFolds a ds ++ [List.foldl wmAfter a ds])) := by
  induction ds generalizing a with
  | nil => simp [prefixFolds, List.Chain', optLe_refl]
  | cons d ds ih =>
    simp only [prefixFolds, List.cons_append, List.foldl_cons]
    exact List.Chain'.cons (optLe_wmAfter a d) (ih (wmAfter a d))

theorem prefixFolds_length (a : Option Int) (ds : List Int) :
    (prefixFolds a ds).length = ds.length := by
  induction ds generalizing a with
  | nil => rfl
  | cons d ds ih => simp [prefixFolds, ih]

theorem prefixFolds_getElem (a : Option Int) (ds : List Int) (i : Nat) (h : i < ds.length) :
    (prefixFolds a ds)[i]? = some (List.foldl wmAfter a (ds.take (i + 1))) := by
  induction ds generalizing a i with
  | nil => cases h
  | cons d ds ih =>
    cases i with
    | zero => simp [prefixFolds]
    | succ j =>
      simp only [prefixFolds, List.getElem?_cons_succ, List.take_succ_cons, List.foldl_cons]
      exact ih (wmAfter a d) j (by simpa using Nat.lt_of_succ_lt_succ h)

theorem advanceWm_lped (st : PersistedState) (d : Int) :
    (advanceWm st d).lped = wmAfter st.lped d := by
  cases h : st.lped with
  | none => simp [advanceWm, wmAfter, h]
  | some l =>
    simp only [advanceWm, wmAfter, h]
    split
    next h2 => simp [max_eq_right (le_of_lt h2)]
    next h2 => simp [h, max_eq_left (le_of_not_lt h2)]

theorem advanceWm_etag (st : PersistedState) (d : Int) :
    (advanceWm st d).etag = st.etag := by
  cases h : st.lped
  · simp [advanceWm, h]
  · simp only [advanceWm, h]
    split <;> rfl

theorem advanceWm_modified (st : PersistedState) (d : Int) :
    (advanceWm st d).modified = st.modified := by
  cases h : st.lped
  · simp [advanceWm, h]
  · simp only [advanceWm, h]
    split <;> rfl

theorem runDests_dry (w : World) (cmd0 : String) (ds : List Dest) :
    (runDests w cmd0 true ds).executed = [] ∧ (runDests w cmd0 true ds).error = none := by
  induction ds with
  | nil => exact ⟨rfl, rfl⟩
  | cons d rest ih =>
    simp only [runDests]
    split
    · exact ih
    · split
      · exact ih
      · simp only [if_true]
        exact ih

theorem runDests_inv_filterMap (w : World) (cmd0 : String) (dry : Bool) (ds : List Dest)
    (h : (runDests w cmd0 dry ds).error = none) :
    (runDests w cmd0 dry ds).invocations =
      ds.filterMap (fun dd =>
        if dd.enabled.getD true then (destPart dd).map (fun dp => cmd0 ++ " " ++ dp)
        else none) := by
  induction ds with
  | nil => rfl
  | cons d rest ih =>
    simp only [runDests] at h ⊢
    by_cases he : d.enabled.getD true = false
    · rw [if_pos he] at h ⊢
      simp [List.filterMap_cons, he, ih h]
    · rw [if_neg he] at h ⊢
      have he2 : d.enabled.getD true = true := by
        cases hx : d.enabled.getD true
        · exact absurd hx he
        · rfl
      cases hdp : destPart d with
      | none => simp [hdp, List.filterMap_cons, he2, ih] at h ⊢; exact ih h
      | some dp =>
        simp only [hdp] at h ⊢
        cases dry with
        | true =>
          simp only [if_true] at h ⊢
          simp [List.filterMap_cons, he2, hdp, ih h]
        | false =>
          simp only [Bool.false_eq_true, if_false] at h ⊢
          cases hrc : w.runCmd (cmd0 ++ " " ++ dp) with
          | true =>
            simp only [hrc, if_true] at h ⊢
            simp [List.filterMap_cons, he2, hdp, ih h]
          | false =>
            simp [hrc] at h

theorem runDests_wet_exec (w : World) (cmd0 : String) (ds : List Dest)
    (h : (runDests w cmd0 false ds).error = none) :
    (runDests w cmd0 false ds).executed = (runDests w cmd0 false ds).invocations := by
  induction ds with
  | nil => rfl
  | cons d rest ih =>
    simp only [runDests] at h ⊢
    split at h
    · split
      · exact ih h
      · simp_all
    · split at h
      · split
        · simp_all
        · exact ih h
      · simp only [Bool.false_eq_true, if_false] at h ⊢
        split at h
        · split
          · simp_all
          · simp_all [ih h]
        · simp at h

theorem runDests_fail_stops (w : World) (cmd0 : String) (dry : Bool) (ds : List Dest)
    (c : String) (h : (runDests w cmd0 dry ds).error = some (RunError.dispatchFail c)) :
    (runDests w cmd0 dry ds).invocations = (runDests w cmd0 dry ds).executed ++ [c] := by
  cases dry with
  | true => simp [(runDests_dry w cmd0 ds).2] at h
  | false =>
    induction ds with
    | nil => simp [runDests] at h
    | cons d rest ih =>
      simp only [runDests, Bool.false_eq_true, if_false] at h ⊢
      by_cases he : d.enabled.getD true = false
      · rw [if_pos he] at h ⊢
        exact ih h
      · rw [if_neg he] at h ⊢
        cases hdp : destPart d with
        | none =>
          simp only [hdp] at h ⊢
          exact ih h
        | some dp =>
          simp only [hdp] at h ⊢
          cases hrc : w.runCmd (cmd0 ++ " " ++ dp) with
          | true =>
            simp only [hrc, if_true] at h ⊢
            simp only [List.cons_append]
            exact congrArg _ (ih h)
          | false =>
            simp only [hrc, Bool.false_eq_true, if_false] at h ⊢
            simp only [Option.some.injEq, RunError.dispatchFail.injEq] at h
            simp [h]

theorem runDests_allOk (w : World) (cmd0 : String) (ds : List Dest)
    (hall : ∀ c, w.runCmd c = true) :
    runDests w cmd0 false ds =
      ⟨(runDests w cmd0 true ds).invocations, (runDests w cmd0 true ds).invocations, none⟩ := by
  induction ds with
  | nil => rfl
  | cons d rest ih =>
    simp only [runDests]
    by_cases he : d.enabled.getD true = false
    · simp only [if_pos he]
      exact ih
    · simp only [if_neg he]
      cases hdp : destPart d with
      | none => exact ih
      | some dp =>
        simp only [hall (cmd0 ++ " " ++ dp), if_true, ih]
        simp [(runDests_dry w cmd0 rest).1]

theorem runDests_dry_eq (w : World) (cmd0 : String) (ds : List Dest) :
    runDests w cmd0 true ds = ⟨(runDests w cmd0 true ds).invocations, [], none⟩ := by
  obtain ⟨h1, h2⟩ := runDests_dry w cmd0 ds
  cases h : runDests w cmd0 true ds
  simp_all

theorem process_entry_dry (w : World) (e : Entry) (ds : List Dest) (sig : Option String) :
    (process_entry w e ds true sig).executed = [] := by
  unfold process_entry
  cases get_og_image w e.link with
  | error m => rfl
  | ok og => exact (runDests_dry w _ ds).1

theorem process_entry_dry_error (w : World) (e : Entry) (ds : List Dest) (sig : Option String) :
    (process_entry w e ds true sig).error = none ∨
      ∃ m, (process_entry w e ds true sig).error = some (RunError.fetchFail m) := by
  unfold process_entry
  cases get_og_image w e.link with
  | error m => exact Or.inr ⟨m, rfl⟩
  | ok og => exact Or.inl (runDests_dry w _ ds).2

theorem process_entry_wet_exec (w : World) (e : Entry) (ds : List Dest) (sig : Option String)
    (h : (process_entry w e ds false sig).error = none) :
    (process_entry w e ds false sig).executed = (process_entry w e ds false sig).invocations := by
  unfold process_entry at h ⊢
  cases hog : get_og_image w e.link with
  | error m => simp [hog] at h
  | ok og =>
    simp only [hog] at h ⊢
    exact runDests_wet_exec w _ ds h

theorem process_entry_fail_stops (w : World) (e : Entry) (ds : List Dest) (dry : Bool)
    (sig : Option String) (c : String)
    (h : (process_entry w e ds dry sig).error = some (RunError.dispatchFail c)) :
    (process_entry w e ds dry sig).invocations =
      (process_entry w e ds dry sig).executed ++ [c] := by
  unfold process_entry at h ⊢
  cases hog : get_og_image w e.link with
  | error m => simp [hog] at h
  | ok og =>
    simp only [hog] at h ⊢
    exact runDests_fail_stops w _ dry ds c h

theorem process_entry_allOk (w : World) (e : Entry) (ds : List Dest) (sig : Option String)
    (hall : ∀ c, w.runCmd c = true) :
    (process_entry w e ds false sig).invocations = (process_entry w e ds true sig).invocations ∧
    (process_entry w e ds false sig).error = (process_entry w e ds true sig).error := by
  unfold process_entry
  cases hog : get_og_image w e.link with
  | error m => exact ⟨rfl, rfl⟩
  | ok og =>
    simp only [hog]
    rw [runDests_allOk w _ ds hall]
    refine ⟨rfl, ?_⟩
    exact (runDests_dry w _ ds).2.symm

theorem processLoop_tokens (w : World) (dests : List Dest) (dry : Bool) (sig : Option String)
    (latest : Option Int) (fl : Option DateTime) (st : PersistedState) (entries : List Entry) :
    ((processLoop w dests dry sig latest fl st entries).state.etag = st.etag ∧
      (processLoop w dests dry sig latest fl st entries).state.modified = st.modified) ∧
    ∀ s ∈ (processLoop w dests dry sig latest fl st entries).writes,
      s.etag = st.etag ∧ s.modified = st.modified := by
  induction entries generalizing st with
  | nil => simp [processLoop]
  | cons e rest ih =>
    simp only [processLoop]
    by_cases helig : eligible (w.parseDate e.published) latest fl = true
    · rw [if_pos helig]
      cases herr : (process_entry w e dests dry sig).error with
      | some err => simp
      | none =>
        obtain ⟨⟨hs1, hs2⟩, hw⟩ := ih (advanceWm st (w.parseDate e.published))
        refine ⟨⟨?_, ?_⟩, ?_⟩
        · rw [hs1, advanceWm_etag]
        · rw [hs2, advanceWm_modified]
        · intro s hs
          rcases List.mem_cons.mp hs with h | h
          · subst h
            exact ⟨advanceWm_etag st _, advanceWm_modified st _⟩
          · obtain ⟨h1, h2⟩ := hw s h
            exact ⟨h1.trans (advanceWm_etag st _), h2.trans (advanceWm_modified st _)⟩
    · rw [if_neg helig]
      exact ih st

theorem processLoop_state_lped (w : World) (dests : List Dest) (dry : Bool) (sig : Option String)
    (latest : Option Int) (fl : Option DateTime) (st : PersistedState) (entries : List Entry) :
    (processLoop w dests dry sig latest fl st entries).state.lped =
      List.foldl wmAfter st.lped
        ((processLoop w dests dry sig latest fl st entries).notified.map
          (fun e => w.parseDate e.published)) := by
  induction entries generalizing st with
  | nil => simp [processLoop]
  | cons e rest ih =>
    simp only [processLoop]
    by_cases helig : eligible (w.parseDate e.published) latest fl = true
    · rw [if_pos helig]
      cases herr : (process_entry w e dests dry sig).error with
      | some err => simp
      | none =>
        have := ih (advanceWm st (w.parseDate e.published))
        simp only [List.map_cons, List.foldl_cons]
        rw [this, advanceWm_lped]
    · rw [if_neg helig]
      exact ih st

theorem processLoop_writes_lped (w : World) (dests : List Dest) (dry : Bool) (sig : Option String)
    (latest : Option Int) (fl : Option DateTime) (st : PersistedState) (entries : List Entry) :
    (processLoop w dests dry sig latest fl st entries).writes.map PersistedState.lped =
      prefixFolds st.lped
        ((processLoop w dests dry sig latest fl st entries).notified.map
          (fun e => w.parseDate e.published)) := by
  induction entries generalizing st with
  | nil => simp [processLoop, prefixFolds]
  | cons e rest ih =>
    simp only [processLoop]
    by_cases helig : eligible (w.parseDate e.published) latest fl = true
    · rw [if_pos helig]
      cases herr : (process_entry w e dests dry sig).error with
      | some err => simp [prefixFolds]
      | none =>
        have := ih (advanceWm st (w.parseDate e.published))
        simp only [List.map_cons, prefixFolds]
        rw [← advanceWm_lped st (w.parseDate e.published), this, advanceWm_lped]
    · rw [if_neg helig]
      exact ih st

theorem processLoop_processed_elig (w : World) (dests : List Dest) (dry : Bool)
    (sig : Option String) (latest : Option Int) (fl : Option DateTime) (st : PersistedState)
    (entries : List Entry) :
    ∀ e ∈ (processLoop w dests dry sig latest fl st entries).processed,
      eligible (w.parseDate e.published) latest fl = true := by
  induction entries generalizing st with
  | nil => simp [processLoop]
  | cons e rest ih =>
    simp only [processLoop]
    by_cases helig : eligible (w.parseDate e.published) latest fl = true
    · rw [if_pos helig]
      cases herr : (process_entry w e dests dry sig).error with
      | some err =>
        intro x hx
        simp only [List.mem_singleton] at hx
        subst hx
        exact helig
      | none =>
        intro x hx
        rcases List.mem_cons.mp hx with h | h
        · subst h; exact helig
        · exact ih (advanceWm st (w.parseDate e.published)) x h
    · rw [if_neg helig]
      exact ih st

theorem processLoop_notified_sub (w : World) (dests : List Dest) (dry : Bool)
    (sig : Option String) (latest : Option Int) (fl : Option DateTime) (st : PersistedState)
    (entries : List Entry) :
    List.Sublist (processLoop w dests dry sig latest fl st entries).notified
      (processLoop w dests dry sig latest fl st entries).processed := by
  induction entries generalizing st with
  | nil => simp [processLoop]
  | cons e rest ih =>
    simp only [processLoop]
    by_cases helig : eligible (w.parseDate e.published) latest fl = true
    · rw [if_pos helig]
      cases herr : (process_entry w e dests dry sig).error with
      | some err => simp
      | none => exact List.Sublist.cons₂ e (ih (advanceWm st (w.parseDate e.published)))
    · rw [if_neg helig]
      exact ih st

theorem processLoop_processed_sub (w : World) (dests : List Dest) (dry : Bool)
    (sig : Option String) (latest : Option Int) (fl : Option DateTime) (st : PersistedState)
    (entries : List Entry) :
    List.Sublist (processLoop w dests dry sig latest fl st entries).processed entries := by
  induction entries generalizing st with
  | nil => simp [processLoop]
  | cons e rest ih =>
    simp only [processLoop]
    by_cases helig : eligible (w.parseDate e.published) latest fl = true
    · rw [if_pos helig]
      cases herr : (process_entry w e dests dry sig).error with
      | some err => simp
      | none => exact List.Sublist.cons₂ e (ih (advanceWm st (w.parseDate e.published)))
    · rw [if_neg helig]
      exact (ih st).cons e

theorem processLoop_ok (w : World) (dests : List Dest) (dry : Bool) (sig : Option String)
    (latest : Option Int) (fl : Option DateTime) (st : PersistedState) (entries : List Entry)
    (h : (processLoop w dests dry sig latest fl st entries).error = none) :
    (processLoop w dests dry sig latest fl st entries).processed =
      entries.filter (fun e => eligible (w.parseDate e.published) latest fl) ∧
    (processLoop w dests dry sig latest fl st entries).notified =
      (processLoop w dests dry sig latest fl st entries).processed := by
  induction entries generalizing st with
  | nil => simp [processLoop]
  | cons e rest ih =>
    simp only [processLoop] at h ⊢
    by_cases helig : eligible (w.parseDate e.published) latest fl = true
    · rw [if_pos helig] at h ⊢
      cases herr : (process_entry w e dests dry sig).error with
      | some err => simp [herr] at h
      | none =>
        simp only [herr] at h ⊢
        obtain ⟨h1, h2⟩ := ih (advanceWm st (w.parseDate e.published)) h
        simp [List.filter_cons, helig, h1, h2]
    · rw [if_neg helig] at h ⊢
      obtain ⟨h1, h2⟩ := ih st h
      have : eligible (w.parseDate e.published) latest fl = false := by
        cases hx : eligible (w.parseDate e.published) latest fl
        · rfl
        · exact absurd hx helig
      simp [List.filter_cons, this, h1, h2]

theorem processLoop_dry (w : World) (dests : List Dest) (sig : Option String)
    (latest : Option Int) (fl : Option DateTime) (st : PersistedState) (entries : List Entry) :
    (processLoop w dests true sig latest fl st entries).executed = [] := by
  induction entries generalizing st with
  | nil => simp [processLoop]
  | cons e rest ih =>
    simp only [processLoop]
    by_cases helig : eligible (w.parseDate e.published) latest fl = true
    · rw [if_pos helig]
      cases herr : (process_entry w e dests true sig).error with
      | some err =>
        have := process_entry_dry w e dests sig
        simp [this]
      | none =>
        have := process_entry_dry w e dests sig
        simp [this, ih (advanceWm st (w.parseDate e.published))]
    · rw [if_neg helig]
      exact ih st

theorem processLoop_fail_stops (w : World) (dests : List Dest) (sig : Option String)
    (latest : Option Int) (fl : Option DateTime) (st : PersistedState) (entries : List Entry)
    (c : String)
    (h : (processLoop w dests false sig latest fl st entries).error =
      some (RunError.dispatchFail c)) :
    (processLoop w dests false sig latest fl st entries).invocations =
      (processLoop w dests false sig latest fl st entries).executed ++ [c] := by
  induction entries generalizing st with
  | nil => simp [processLoop] at h
  | cons e rest ih =>
    simp only [processLoop] at h ⊢
    by_cases helig : eligible (w.parseDate e.published) latest fl = true
    · rw [if_pos helig] at h ⊢
      cases herr : (process_entry w e dests false sig).error with
      | some err =>
        simp only [herr] at h ⊢
        simp only [Option.some.injEq] at h
        subst h
        exact process_entry_fail_stops w e dests false sig c herr
      | none =>
        simp only [herr] at h ⊢
        have h1 := ih (advanceWm st (w.parseDate e.published)) h
        have h2 := process_entry_wet_exec w e dests sig herr
        simp only [h1, ← h2, List.append_assoc]
    · rw [if_neg helig] at h ⊢
      exact ih st h

theorem processLoop_allOk (w : World) (dests : List Dest) (sig : Option String)
    (latest : Option Int) (fl : Option DateTime) (st : PersistedState) (entries : List Entry)
    (hall : ∀ c, w.runCmd c = true) :
    (processLoop w dests false sig latest fl st entries).state =
      (processLoop w dests true sig latest fl st entries).state ∧
    (processLoop w dests false sig latest fl st entries).writes =
      (processLoop w dests true sig latest fl st entries).writes ∧
    (processLoop w dests false sig latest fl st entries).processed =
      (processLoop w dests true sig latest fl st entries).processed ∧
    (processLoop w dests false sig latest fl st entries).notified =
      (processLoop w dests true sig latest fl st entries).notified ∧
    (processLoop w dests false sig latest fl st entries).invocations =
      (processLoop w dests true sig latest fl st entries).invocations ∧
    (processLoop w dests false sig latest fl st entries).error =
      (processLoop w dests true sig latest fl st entries).error := by
  induction entries generalizing st with
  | nil => simp [processLoop]
  | cons e rest ih =>
    simp only [processLoop]
    obtain ⟨hinv, herr⟩ := process_entry_allOk w e dests sig hall
    by_cases helig : eligible (w.parseDate e.published) latest fl = true
    · simp only [if_pos helig]
      cases hc : (process_entry w e dests true sig).error with
      | some err =>
        simp only [herr, hc]
        simp [hinv]
      | none =>
        simp only [herr, hc]
        obtain ⟨i1, i2, i3, i4, i5, i6⟩ := ih (advanceWm st (w.parseDate e.published))
        simp [hinv, i1, i2, i3, i4, i5, i6]
    · simp only [if_neg helig]
      exact ih st

theorem main_run_304 (w : World) (dests : List Dest) (sig : Option String)
    (fl : Option DateTime) (skip : Bool) (sf : Option PersistedState) (d : FeedDoc)
    (h : d.status = 304) :
    main_run w dests sig fl skip sf d = ⟨loadState sf, [], [], [], [], [], none⟩ := by
  unfold main_run
  rw [if_pos h]

theorem main_run_err (w : World) (dests : List Dest) (sig : Option String)
    (fl : Option DateTime) (skip : Bool) (sf : Option PersistedState) (d : FeedDoc)
    (err : RunError) (h : d.status ≠ 304)
    (he : (loopOf w dests sig fl skip sf d).error = some err) :
    main_run w dests sig fl skip sf d =
      ⟨(loopOf w dests sig fl skip sf d).state, (loopOf w dests sig fl skip sf d).writes,
        (loopOf w dests sig fl skip sf d).processed, (loopOf w dests sig fl skip sf d).notified,
        (loopOf w dests sig fl skip sf d).invocations, (loopOf w dests sig fl skip sf d).executed,
        some err⟩ := by
  unfold main_run
  rw [if_neg h]
  unfold loopOf at he ⊢
  simp only [he]

theorem main_run_ok (w : World) (dests : List Dest) (sig : Option String)
    (fl : Option DateTime) (skip : Bool) (sf : Option PersistedState) (d : FeedDoc)
    (h : d.status ≠ 304) (he : (loopOf w dests sig fl skip sf d).error = none) :
    main_run w dests sig fl skip sf d =
      ⟨tokUpdate w d (loopOf w dests sig fl skip sf d).state,
        (loopOf w dests sig fl skip sf d).writes ++
          [tokUpdate w d (loopOf w dests sig fl skip sf d).state],
        (loopOf w dests sig fl skip sf d).processed, (loopOf w dests sig fl skip sf d).notified,
        (loopOf w dests sig fl skip sf d).invocations, (loopOf w dests sig fl skip sf d).executed,
        none⟩ := by
  unfold main_run
  rw [if_neg h]
  unfold loopOf at he ⊢
  simp only [he]

theorem prefixFolds_getLast (a : Option Int) (ds : List Int) (h : ds ≠ []) :
    (prefixFolds a ds).getLast? = some (List.foldl wmAfter a ds) := by
  induction ds generalizing a with
  | nil => exact absurd rfl h
  | cons d ds ih =>
    cases ds with
    | nil => simp [prefixFolds]
    | cons d2 ds2 =>
      simp only [prefixFolds, List.foldl_cons]
      rw [List.getLast?_cons_cons]
      exact ih (wmAfter a d) (by simp)

theorem eligible_optLt {eDate : Int} {latest : Option Int} {fl : Option DateTime}
    (h : eligible eDate latest fl = true) : optLt latest eDate := by
  cases latest with
  | none => trivial
  | some l =>
    simp only [eligible, Bool.and_eq_true, decide_eq_true_eq] at h
    exact h.1

theorem tokUpdate_lped (w : World) (d : FeedDoc) (st : PersistedState) :
    (tokUpdate w d st).lped = st.lped := by
  unfold tokUpdate
  cases d.modifiedRaw with
  | none => split <;> rfl
  | some s =>
    by_cases hs : (s == "") = true
    · simp only [if_pos hs]
      split <;> rfl
    · simp only [if_neg hs]
      split <;> rfl

theorem tokUpdate_etag (w : World) (d : FeedDoc) (st : PersistedState) :
    (tokUpdate w d st).etag = (if pyTruthy d.etag then d.etag else st.etag) := by
  unfold tokUpdate
  cases d.modifiedRaw with
  | none => split <;> rfl
  | some s =>
    by_cases hs : (s == "") = true
    · simp only [if_pos hs]
      split <;> rfl
    · simp only [if_neg hs]
      split <;> rfl

theorem tokUpdate_modified (w : World) (d : FeedDoc) (st : PersistedState) :
    (tokUpdate w d st).modified =
      (match d.modifiedRaw with
        | some s => if s == "" then st.modified else some (w.parseDate s)
        | none => st.modified) := by
  unfold tokUpdate
  cases d.modifiedRaw with
  | none => split <;> rfl
  | some s =>
    by_cases hs : (s == "") = true
    · simp only [if_pos hs]
      split <;> rfl
    · simp only [if_neg hs]

theorem finalLped_from_map {ws : List PersistedState} {wm0 : Option Int} {ds : List Int}
    (hmap : ws.map PersistedState.lped = prefixFolds wm0 ds)
    (hlt : ∀ x ∈ ds, optLt wm0 x) :
    finalLped ws wm0 = (if ds.isEmpty then wm0 else List.foldl wmAfter none ds) := by
  cases hds : ds with
  | nil =>
    subst hds
    have hw : ws = [] := List.map_eq_nil_iff.mp (by rw [hmap]; rfl)
    simp [finalLped, hw]
  | cons d0 ds0 =>
    subst hds
    have hlast : (ws.map PersistedState.lped).getLast? =
        some (List.foldl wmAfter wm0 (d0 :: ds0)) := by
      rw [hmap]
      exact prefixFolds_getLast wm0 (d0 :: ds0) (by simp)
    rw [List.getLast?_map] at hlast
    obtain ⟨s, hs, hv⟩ := Option.map_eq_some'.mp hlast
    rw [foldl_wmAfter_of_lt hlt] at hv
    simp only [List.isEmpty_cons] at hv ⊢
    simp only [finalLped, hs]
    simp only [hv]

theorem finalLped_from_map_final {ws : List PersistedState} {wm0 : Option Int} {ds : List Int}
    (hmap : ws.map PersistedState.lped =
      prefixFolds wm0 ds ++ [List.foldl wmAfter wm0 ds])
    (hlt : ∀ x ∈ ds, optLt wm0 x) :
    finalLped ws wm0 = (if ds.isEmpty then wm0 else List.foldl wmAfter none ds) := by
  have hlast : (ws.map PersistedState.lped).getLast? =
      some (List.foldl wmAfter wm0 ds) := by
    rw [hmap]
    exact List.getLast?_concat _
  rw [List.getLast?_map] at hlast
  obtain ⟨s, hs, hv⟩ := Option.map_eq_some'.mp hlast
  rw [foldl_wmAfter_of_lt hlt] at hv
  simp only [finalLped, hs]
  exact hv

theorem writes_getElem_from_map {ws : List PersistedState} {wm0 : Option Int} {ds : List Int}
    (hmap : ws.map PersistedState.lped = prefixFolds wm0 ds)
    (i : Nat) (hi : i < ds.length) :
    (ws[i]?).map PersistedState.lped =
      some (List.foldl wmAfter wm0 (ds.take (i + 1))) := by
  have h1 : (ws.map PersistedState.lped)[i]? = (prefixFolds wm0 ds)[i]? := by rw [hmap]
  rw [List.getElem?_map] at h1
  rw [h1, prefixFolds_getElem wm0 ds i hi]

theorem writes_getElem_from_map_final {ws : List PersistedState} {wm0 : Option Int} {ds : List Int}
    (hmap : ws.map PersistedState.lped =
      prefixFolds wm0 ds ++ [List.foldl wmAfter wm0 ds])
    (i : Nat) (hi : i < ds.length) :
    (ws[i]?).map PersistedState.lped =
      some (List.foldl wmAfter wm0 (ds.take (i + 1))) := by
  have h1 : (ws.map PersistedState.lped)[i]? =
      (prefixFolds wm0 ds ++ [List.foldl wmAfter wm0 ds])[i]? := by rw [hmap]
  rw [List.getElem?_map, List.getElem?_append, if_pos (by rw [prefixFolds_length]; exact hi)]
    at h1
  rw [h1, prefixFolds_getElem wm0 ds i hi]

theorem processLoop_notified_optLt (w : World) (dests : List Dest) (dry : Bool)
    (sig : Option String) (latest : Option Int) (fl : Option DateTime) (st : PersistedState)
    (entries : List Entry) :
    ∀ x ∈ (processLoop w dests dry sig latest fl st entries).notified.map
      (fun e => w.parseDate e.published), optLt latest x := by
  intro x hx
  obtain ⟨e, he, rfl⟩ := List.mem_map.mp hx
  exact eligible_optLt (processLoop_processed_elig w dests dry sig latest fl st entries e
    ((processLoop_notified_sub w dests dry sig latest fl st entries).subset he))

theorem mapIsEmpty {α β : Type} (f : α → β) (l : List α) : (l.map f).isEmpty = l.isEmpty := by
  cases l <;> rfl

/-- Claim C1: in every run, after each entry is fully and successfully
notified the persisted watermark advances to that entry's publication
timestamp only when strictly greater than the current one, and the state is
persisted immediately, before the next entry (the i-th write's watermark is
exactly the running watermark over the first i+1 notified entries); the
watermark is monotonically non-decreasing from the loaded state through every
write; and the final persisted watermark equals the maximum publication
timestamp among the entries successfully notified in the run, or is unchanged
when none were. -/
theorem C1_watermark_checkpoint (w : World) (dests : List Dest) (sig : Option String)
    (fl : Option DateTime) (skip : Bool) (sf : Option PersistedState) (d : FeedDoc) :
    List.Chain' optLe ((loadState sf).lped ::
      (main_run w dests sig fl skip sf d).writes.map PersistedState.lped) ∧
    finalLped (main_run w dests sig fl skip sf d).writes (loadState sf).lped =
      (if (main_run w dests sig fl skip sf d).notified.isEmpty then (loadState sf).lped
        else maxOfDates w (main_run w dests sig fl skip sf d).notified) ∧
    ∀ i, i < (main_run w dests sig fl skip sf d).notified.length →
      ((main_run w dests sig fl skip sf d).writes[i]?).map PersistedState.lped =
        some (List.foldl wmAfter (loadState sf).lped
          (((main_run w dests sig fl skip sf d).notified.take (i + 1)).map
            (fun e => w.parseDate e.published))) := by
  by_cases h304 : d.status = 304
  · rw [main_run_304 w dests sig fl skip sf d h304]
    exact ⟨by simp, by simp [finalLped], by simp⟩
  · have hmap : (loopOf w dests sig fl skip sf d).writes.map PersistedState.lped =
        prefixFolds (loadState sf).lped
          ((loopOf w dests sig fl skip sf d).notified.map (fun e => w.parseDate e.published)) :=
      processLoop_writes_lped w dests skip sig (loadState sf).lped fl (loadState sf)
        (sortEntries d.entries)
    have hlt : ∀ x ∈ (loopOf w dests sig fl skip sf d).notified.map
        (fun e => w.parseDate e.published), optLt (loadState sf).lped x :=
      processLoop_notified_optLt w dests skip sig (loadState sf).lped fl (loadState sf)
        (sortEntries d.entries)
    cases herr : (loopOf w dests sig fl skip sf d).error with
    | some err =>
      rw [main_run_err w dests sig fl skip sf d err h304 herr]
      refine ⟨?_, ?_, ?_⟩
      · simp only []
        rw [hmap]
        exact chain_prefixFolds _ _
      · simp only []
        rw [finalLped_from_map hmap hlt, mapIsEmpty]
        rfl
      · intro i hi
        simp only [] at hi ⊢
        rw [List.map_take]
        exact writes_getElem_from_map hmap i (by rw [List.length_map]; exact hi)
    | none =>
      rw [main_run_ok w dests sig fl skip sf d h304 herr]
      have hst : (loopOf w dests sig fl skip sf d).state.lped =
          List.foldl wmAfter (loadState sf).lped
            ((loopOf w dests sig fl skip sf d).notified.map (fun e => w.parseDate e.published)) :=
        processLoop_state_lped w dests skip sig (loadState sf).lped fl (loadState sf)
          (sortEntries d.entries)
      have hmapF : ((loopOf w dests sig fl skip sf d).writes ++
            [tokUpdate w d (loopOf w dests sig fl skip sf d).state]).map PersistedState.lped =
          prefixFolds (loadState sf).lped
              ((loopOf w dests sig fl skip sf d).notified.map
                (fun e => w.parseDate e.published)) ++
            [List.foldl wmAfter (loadState sf).lped
              ((loopOf w dests sig fl skip sf d).notified.map
                (fun e => w.parseDate e.published))] := by
        rw [List.map_append, hmap]
        simp only [List.map_cons, List.map_nil]
        rw [tokUpdate_lped, hst]
      refine ⟨?_, ?_, ?_⟩
      · simp only []
        rw [hmapF]
        exact chain_prefixFolds_final _ _
      · simp only []
        rw [finalLped_from_map_final hmapF hlt, mapIsEmpty]
        rfl
      · intro i hi
        simp only [] at hi ⊢
        rw [List.map_take]
        exact writes_getElem_from_map_final hmapF i (by rw [List.length_map]; exact hi)

theorem optLt_le {o : Option Int} {x : Int} (h : optLt o x) : optLe o (some x) := by
  cases o with
  | none => trivial
  | some l => exact le_of_lt h

theorem optLt_optLe_absurd {o : Option Int} {x : Int} (h1 : optLt o x)
    (h2 : optLe (some x) o) : False := by
  cases o with
  | none => exact h2
  | some l => exact absurd h1 (not_lt.mpr h2)

theorem foldl_wmAfter_sorted {wm0 : Option Int} {ds : List Int}
    (hle : ∀ x ∈ ds, optLe wm0 (some x))
    (hs : List.Pairwise (fun a b : Int => a ≤ b) ds) (hne : ds ≠ []) :
    List.foldl wmAfter wm0 ds = ds.getLast? := by
  induction ds generalizing wm0 with
  | nil => exact absurd rfl hne
  | cons d rest ih =>
    cases hrest : rest with
    | nil =>
      subst hrest
      cases wm0 with
      | none => rfl
      | some l =>
        have hld : l ≤ d := hle d (by simp)
        simp [List.foldl, wmAfter, max_eq_right hld, List.getLast?]
    | cons d2 rest2 =>
      subst hrest
      have h1 : List.foldl wmAfter wm0 (d :: d2 :: rest2) =
          List.foldl wmAfter (wmAfter wm0 d) (d2 :: rest2) := rfl
      have hle2 : ∀ x ∈ d2 :: rest2, optLe (wmAfter wm0 d) (some x) := by
        intro x hx
        have hdx : d ≤ x := (List.pairwise_cons.mp hs).1 x hx
        cases wm0 with
        | none => exact hdx
        | some l =>
          have hlx : l ≤ x := hle x (List.mem_cons_of_mem d hx)
          exact max_le hlx hdx
      rw [h1, ih hle2 (hs.sublist (List.sublist_cons_self d (d2 :: rest2))) (by simp)]
      rw [List.getLast?_cons_cons]

theorem main_run_notified_sub (w : World) (dests : List Dest) (sig : Option String)
    (fl : Option DateTime) (skip : Bool) (sf : Option PersistedState) (d : FeedDoc) :
    List.Sublist (main_run w dests sig fl skip sf d).notified (sortEntries d.entries) := by
  by_cases h304 : d.status = 304
  · rw [main_run_304 w dests sig fl skip sf d h304]
    exact List.nil_sublist _
  · cases herr : (loopOf w dests sig fl skip sf d).error with
    | some err =>
      rw [main_run_err w dests sig fl skip sf d err h304 herr]
      exact (processLoop_notified_sub w dests skip sig (loadState sf).lped fl (loadState sf)
        (sortEntries d.entries)).trans
        (processLoop_processed_sub w dests skip sig (loadState sf).lped fl (loadState sf)
          (sortEntries d.entries))
    | none =>
      rw [main_run_ok w dests sig fl skip sf d h304 herr]
      exact (processLoop_notified_sub w dests skip sig (loadState sf).lped fl (loadState sf)
        (sortEntries d.entries)).trans
        (processLoop_processed_sub w dests skip sig (loadState sf).lped fl (loadState sf)
          (sortEntries d.entries))

theorem main_run_processed_elig (w : World) (dests : List Dest) (sig : Option String)
    (fl : Option DateTime) (skip : Bool) (sf : Option PersistedState) (d : FeedDoc) :
    ∀ e ∈ (main_run w dests sig fl skip sf d).processed,
      eligible (w.parseDate e.published) (loadState sf).lped fl = true := by
  by_cases h304 : d.status = 304
  · rw [main_run_304 w dests sig fl skip sf d h304]
    intro e he
    exact absurd he (List.not_mem_nil e)
  · cases herr : (loopOf w dests sig fl skip sf d).error with
    | some err =>
      rw [main_run_err w dests sig fl skip sf d err h304 herr]
      exact processLoop_processed_elig w dests skip sig (loadState sf).lped fl (loadState sf)
        (sortEntries d.entries)
    | none =>
      rw [main_run_ok w dests sig fl skip sf d h304 herr]
      exact processLoop_processed_elig w dests skip sig (loadState sf).lped fl (loadState sf)
        (sortEntries d.entries)

theorem main_run_state_lped (w : World) (dests : List Dest) (sig : Option String)
    (fl : Option DateTime) (skip : Bool) (sf : Option PersistedState) (d : FeedDoc) :
    (main_run w dests sig fl skip sf d).state.lped =
      List.foldl wmAfter (loadState sf).lped
        ((main_run w dests sig fl skip sf d).notified.map (fun e => w.parseDate e.published)) := by
  by_cases h304 : d.status = 304
  · rw [main_run_304 w dests sig fl skip sf d h304]
    rfl
  · cases herr : (loopOf w dests sig fl skip sf d).error with
    | some err =>
      rw [main_run_err w dests sig fl skip sf d err h304 herr]
      exact processLoop_state_lped w dests skip sig (loadState sf).lped fl (loadState sf)
        (sortEntries d.entries)
    | none =>
      rw [main_run_ok w dests sig fl skip sf d h304 herr]
      have := tokUpdate_lped w d (loopOf w dests sig fl skip sf d).state
      simp only []
      rw [this]
      exact processLoop_state_lped w dests skip sig (loadState sf).lped fl (loadState sf)
        (sortEntries d.entries)

theorem main_run_processed_filter (w : World) (dests : List Dest) (sig : Option String)
    (skip : Bool) (sf : Option PersistedState) (d : FeedDoc) (flClock : Option Int)
    (h304 : d.status ≠ 304)
    (herr : (main_run w dests sig (flClock.map (fun c => DateTime.mk c none)) skip sf d).error
      = none) :
    (main_run w dests sig (flClock.map (fun c => DateTime.mk c none)) skip sf d).processed =
      (sortEntries d.entries).filter (specEligible w (loadState sf).lped flClock) := by
  cases herr2 : (loopOf w dests sig (flClock.map (fun c => DateTime.mk c none)) skip sf d).error
    with
  | some err =>
    rw [main_run_err w dests sig (flClock.map (fun c => DateTime.mk c none)) skip sf d err h304
      herr2] at herr
    simp at herr
  | none =>
    rw [main_run_ok w dests sig (flClock.map (fun c => DateTime.mk c none)) skip sf d h304 herr2]
    unfold loopOf
    obtain ⟨h1, _⟩ := processLoop_ok w dests skip sig (loadState sf).lped
      (flClock.map (fun c => DateTime.mk c none)) (loadState sf) (sortEntries d.entries) herr2
    simp only []
    rw [h1]
    apply List.filter_congr
    intro e _
    cases flClock with
    | none => rfl
    | some c =>
      simp only [eligible, specEligible, Option.map_some', replaceUtc, DateTime.instant]
      norm_num

/-- Claim C2: in a completed (non-304, error-free) run with a floor date
carrying no explicit zone (hence interpreted as UTC: its instant is its clock
reading), an entry is selected for notification iff the watermark is absent or
the entry's date strictly exceeds it, and the floor is absent or the entry's
date strictly exceeds it; in particular a selected entry's date always
strictly exceeds a present watermark, even when it exceeds the floor. -/
theorem C2_eligibility (w : World) (dests : List Dest) (sig : Option String) (skip : Bool)
    (sf : Option PersistedState) (d : FeedDoc) (flClock : Option Int)
    (h304 : d.status ≠ 304)
    (herr : (main_run w dests sig (flClock.map (fun c => DateTime.mk c none)) skip sf d).error
      = none) :
    (main_run w dests sig (flClock.map (fun c => DateTime.mk c none)) skip sf d).processed =
      (sortEntries d.entries).filter (specEligible w (loadState sf).lped flClock) ∧
    ∀ e ∈ (main_run w dests sig (flClock.map (fun c => DateTime.mk c none)) skip sf d).processed,
      ∀ l, (loadState sf).lped = some l → w.parseDate e.published > l := by
  refine ⟨main_run_processed_filter w dests sig skip sf d flClock h304 herr, ?_⟩
  intro e he l hl
  have helig := main_run_processed_elig w dests sig
    (flClock.map (fun c => DateTime.mk c none)) skip sf d e he
  have := eligible_optLt helig
  rw [hl] at this
  exact this

/-- A demonstration world: every page has no og:image tag, every external
command succeeds, and the date parser maps the sample raw strings P1, P2, P3
to the instants 10, 20, 30. -/
def wDemo : World where
  fetchPage := fun _ => .ok ⟨none⟩
  fetchImage := fun _ => .error "unused"
  guessExt := fun _ => none
  tempFile := fun s => "/tmp/preview" ++ s
  runCmd := fun _ => true
  parseDate := fun s => if s == "P1" then 10 else if s == "P2" then 20 else
    if s == "P3" then 30 else 0

def entry1 : Entry := ⟨"L1", "T1", "D1", "P1", 1⟩

def entry2 : Entry := ⟨"L2", "T2", "D2", "P2", 2⟩

def destPhone : Dest := ⟨none, some "+1", none, none⟩

def docDemo : FeedDoc := ⟨200, [entry1, entry2], some "E2", none⟩

/-- Witness for C2 at a concrete input: watermark 15 and floor 5; only the
entry dated 20 is selected. -/
theorem C2_eligibility_witness :
    (main_run wDemo [destPhone] none ((some (5 : Int)).map (fun c => DateTime.mk c none)) false
        (some ⟨some 15, none, none⟩) docDemo).processed =
      (sortEntries docDemo.entries).filter
        (specEligible wDemo (loadState (some ⟨some 15, none, none⟩)).lped (some 5)) ∧
    ∀ e ∈ (main_run wDemo [destPhone] none
        ((some (5 : Int)).map (fun c => DateTime.mk c none)) false
        (some ⟨some 15, none, none⟩) docDemo).processed,
      ∀ l, (loadState (some ⟨some 15, none, none⟩)).lped = some l →
        wDemo.parseDate e.published > l :=
  C2_eligibility wDemo [destPhone] none false (some ⟨some 15, none, none⟩) docDemo (some 5)
    (by decide) (by decide)

/-- Claim C3: when dispatching an entry to some enabled destination fails, the
loop over destinations stops at the failing command (the announced commands
are exactly the executed ones plus the failing command, so no later
destination is attempted) and the failure propagates out of the run; the
persisted watermark then equals the publication timestamp of the last entry
fully notified before the failure (or is unchanged if none was), and no write
of the run touches the cache tokens.  The entries are assumed to arrive in
non-decreasing publication-date order, as the claim presupposes. -/
theorem C3_dispatch_failure (w : World) (dests : List Dest) (sig : Option String)
    (fl : Option DateTime) (sf : Option PersistedState) (d : FeedDoc) (c : String)
    (hfail : (main_run w dests sig fl false sf d).error = some (RunError.dispatchFail c))
    (hsorted : List.Pairwise (fun a b => w.parseDate a.published ≤ w.parseDate b.published)
      (sortEntries d.entries)) :
    (main_run w dests sig fl false sf d).invocations =
      (main_run w dests sig fl false sf d).executed ++ [c] ∧
    finalLped (main_run w dests sig fl false sf d).writes (loadState sf).lped =
      (match (main_run w dests sig fl false sf d).notified.getLast? with
        | some e => some (w.parseDate e.published)
        | none => (loadState sf).lped) ∧
    ∀ s ∈ (main_run w dests sig fl false sf d).writes,
      s.etag = (loadState sf).etag ∧ s.modified = (loadState sf).modified := by
  by_cases h304 : d.status = 304
  · rw [main_run_304 w dests sig fl false sf d h304] at hfail
    simp at hfail
  · cases herr2 : (loopOf w dests sig fl false sf d).error with
    | none =>
      rw [main_run_ok w dests sig fl false sf d h304 herr2] at hfail
      simp at hfail
    | some err =>
      have herr3 := herr2
      rw [main_run_err w dests sig fl false sf d err h304 herr2] at hfail ⊢
      simp only [Option.some.injEq] at hfail
      subst hfail
      unfold loopOf at herr3 ⊢
      have hmap := processLoop_writes_lped w dests false sig (loadState sf).lped fl
        (loadState sf) (sortEntries d.entries)
      have hlt := processLoop_notified_optLt w dests false sig (loadState sf).lped fl
        (loadState sf) (sortEntries d.entries)
      refine ⟨?_, ?_, ?_⟩
      · exact processLoop_fail_stops w dests sig (loadState sf).lped fl (loadState sf)
          (sortEntries d.entries) c herr3
      · rw [finalLped_from_map hmap hlt]
        have hnp : List.Pairwise (fun a b => w.parseDate a.published ≤ w.parseDate b.published)
            (processLoop w dests false sig (loadState sf).lped fl (loadState sf)
              (sortEntries d.entries)).notified :=
          hsorted.sublist ((processLoop_notified_sub w dests false sig (loadState sf).lped fl
            (loadState sf) (sortEntries d.entries)).trans
            (processLoop_processed_sub w dests false sig (loadState sf).lped fl
              (loadState sf) (sortEntries d.entries)))
        cases hn : (processLoop w dests false sig (loadState sf).lped fl (loadState sf)
            (sortEntries d.entries)).notified with
        | nil => simp [hn]
        | cons e0 rest =>
          have hne : ((e0 :: rest).map (fun e => w.parseDate e.published)) ≠ [] := by simp
          have hpmap : List.Pairwise (fun a b : Int => a ≤ b)
              ((e0 :: rest).map (fun e => w.parseDate e.published)) := by
            rw [hn] at hnp
            exact List.pairwise_map.mpr hnp
          simp only [List.isEmpty_cons, Bool.false_eq_true, if_false]
          rw [foldl_wmAfter_sorted (fun x _ => optLe_none (some x)) hpmap hne]
          rw [List.getLast?_map]
          cases hgl : (e0 :: rest).getLast? with
          | none => exact absurd hgl (by simp)
          | some eL => simp
      · intro s hs
        exact (processLoop_tokens w dests false sig (loadState sf).lped fl (loadState sf)
          (sortEntries d.entries)).2 s hs

/-- The command that `process_entry` builds for an entry with no preview image
sent to the phone destination `+1`. -/
def cmdFor (e : Entry) : String := entryCmd none e "" ++ " +1"

/-- A world in which only the command for `entry1` succeeds, so the dispatch
for `entry2` fails. -/
def wFail : World where
  fetchPage := fun _ => .ok ⟨none⟩
  fetchImage := fun _ => .error "unused"
  guessExt := fun _ => none
  tempFile := fun s => s
  runCmd := fun c => c == cmdFor entry1
  parseDate := fun s => if s == "P1" then 10 else if s == "P2" then 20 else 0

def docFail : FeedDoc := ⟨200, [entry1, entry2], some "E2", none⟩

/-- Witness for C3 at a concrete input: entry1 is notified, entry2's dispatch
fails; the persisted watermark is entry1's date and the stored etag "E1" is
untouched. -/
theorem C3_dispatch_failure_witness :
    (main_run wFail [destPhone] none none false (some ⟨none, some "E1", none⟩)
        docFail).invocations =
      (main_run wFail [destPhone] none none false (some ⟨none, some "E1", none⟩)
        docFail).executed ++ [cmdFor entry2] ∧
    finalLped (main_run wFail [destPhone] none none false (some ⟨none, some "E1", none⟩)
        docFail).writes (loadState (some ⟨none, some "E1", none⟩)).lped =
      (match (main_run wFail [destPhone] none none false (some ⟨none, some "E1", none⟩)
          docFail).notified.getLast? with
        | some e => some (wFail.parseDate e.published)
        | none => (loadState (some ⟨none, some "E1", none⟩)).lped) ∧
    ∀ s ∈ (main_run wFail [destPhone] none none false (some ⟨none, some "E1", none⟩)
        docFail).writes,
      s.etag = (loadState (some ⟨none, some "E1", none⟩)).etag ∧
        s.modified = (loadState (some ⟨none, some "E1", none⟩)).modified :=
  C3_dispatch_failure wFail [destPhone] none none (some ⟨none, some "E1", none⟩) docFail
    (cmdFor entry2) (by decide) (by decide)

/-- Claim C4: on a 304 ("not modified") response the run ends immediately with
no state write, no selection and no notification; in every run all writes
except possibly the final one leave both cache-token halves exactly as loaded
(tokens are never updated mid-loop); and when the run aborts with an error no
write at all touches the cache tokens, so they are written updated at most
once, after the whole eligible list has been processed. -/
theorem C4_cache_token_timing (w : World) (dests : List Dest) (sig : Option String)
    (fl : Option DateTime) (skip : Bool) (sf : Option PersistedState) (d : FeedDoc) :
    (d.status = 304 →
      (main_run w dests sig fl skip sf d).writes = [] ∧
      (main_run w dests sig fl skip sf d).processed = [] ∧
      (main_run w dests sig fl skip sf d).invocations = [] ∧
      (main_run w dests sig fl skip sf d).executed = []) ∧
    (∀ s ∈ (main_run w dests sig fl skip sf d).writes.dropLast,
      s.etag = (loadState sf).etag ∧ s.modified = (loadState sf).modified) ∧
    ((main_run w dests sig fl skip sf d).error.isSome →
      ∀ s ∈ (main_run w dests sig fl skip sf d).writes,
        s.etag = (loadState sf).etag ∧ s.modified = (loadState sf).modified) := by
  have htok := (processLoop_tokens w dests skip sig (loadState sf).lped fl (loadState sf)
    (sortEntries d.entries)).2
  by_cases h304 : d.status = 304
  · rw [main_run_304 w dests sig fl skip sf d h304]
    exact ⟨fun _ => ⟨rfl, rfl, rfl, rfl⟩, by simp, by simp⟩
  · cases herr : (loopOf w dests sig fl skip sf d).error with
    | some err =>
      rw [main_run_err w dests sig fl skip sf d err h304 herr]
      refine ⟨fun h => absurd h h304, ?_, ?_⟩
      · intro s hs
        exact htok s ((List.dropLast_sublist _).subset hs)
      · intro _ s hs
        exact htok s hs
    | none =>
      rw [main_run_ok w dests sig fl skip sf d h304 herr]
      refine ⟨fun h => absurd h h304, ?_, ?_⟩
      · intro s hs
        rw [List.dropLast_concat] at hs
        exact htok s hs
      · intro h
        simp at h

def doc304 : FeedDoc := ⟨304, [entry1, entry2], some "E2", none⟩

/-- Witness for C4: a 304 run writes nothing and notifies nothing, and in the
concrete failing run of `wFail` every write leaves the loaded tokens
untouched. -/
theorem C4_cache_token_timing_witness :
    ((main_run wDemo [destPhone] none none false (some ⟨some 5, some "E1", none⟩)
        doc304).writes = [] ∧
      (main_run wDemo [destPhone] none none false (some ⟨some 5, some "E1", none⟩)
        doc304).processed = [] ∧
      (main_run wDemo [destPhone] none none false (some ⟨some 5, some "E1", none⟩)
        doc304).invocations = [] ∧
      (main_run wDemo [destPhone] none none false (some ⟨some 5, some "E1", none⟩)
        doc304).executed = []) ∧
    ∀ s ∈ (main_run wFail [destPhone] none none false (some ⟨none, some "E1", none⟩)
        docFail).writes,
      s.etag = (loadState (some ⟨none, some "E1", none⟩)).etag ∧
        s.modified = (loadState (some ⟨none, some "E1", none⟩)).modified :=
  ⟨(C4_cache_token_timing wDemo [destPhone] none none false
      (some ⟨some 5, some "E1", none⟩) doc304).1 rfl,
    (C4_cache_token_timing wFail [destPhone] none none false
      (some ⟨none, some "E1", none⟩) docFail).2.2 (by decide)⟩

/-- A world in which every HTTP fetch raises (e.g. a timeout). -/
def wTimeout : World where
  fetchPage := fun _ => .error "timeout"
  fetchImage := fun _ => .error "timeout"
  guessExt := fun _ => none
  tempFile := fun s => s
  runCmd := fun _ => true
  parseDate := fun _ => 0

/-- Claim C5 counterexample: when the page fetch times out, `get_og_image`
does not return "nothing" — the exception propagates (there is no handler in
the source), the entry is not notified, and the run aborts with the fetch
error, contradicting the claim that such failures never propagate and the
entry is still notified without an image. -/
theorem C5_counterexample :
    get_og_image wTimeout "L1" ≠ Except.ok none ∧
    (process_entry wTimeout entry1 [destPhone] false none).error =
      some (RunError.fetchFail "timeout") ∧
    (process_entry wTimeout entry1 [destPhone] false none).invocations = [] ∧
    (main_run wTimeout [destPhone] none none false none
      ⟨200, [entry1], none, none⟩).notified = [] ∧
    (main_run wTimeout [destPhone] none none false none
      ⟨200, [entry1], none, none⟩).error = some (RunError.fetchFail "timeout") := by
  refine ⟨?_, by decide, by decide, by decide, by decide⟩
  intro h
  rw [show get_og_image wTimeout "L1" = Except.error "timeout" from rfl] at h
  exact Except.noConfusion h

/-- Claim C5 as amended: a failing page fetch or image fetch raises, and the
exception propagates out of `process_entry` (the entry is not notified);
preview extraction returns "nothing" only when the page is fetched
successfully but carries no usable og:image reference — in that case the
entry is still notified with no image argument attached (the command is the
bare `entryCmd` with an empty image part). -/
theorem C5_preview_failure_amended (w : World) (e : Entry) (dests : List Dest) (dry : Bool)
    (sig : Option String) :
    (∀ page, w.fetchPage e.link = Except.ok page → page.ogImage = none →
      get_og_image w e.link = Except.ok none ∧
      process_entry w e dests dry sig = runDests w (entryCmd sig e "") dry dests) ∧
    (∀ m, w.fetchPage e.link = Except.error m →
      get_og_image w e.link = Except.error m ∧
      process_entry w e dests dry sig = ⟨[], [], some (RunError.fetchFail m)⟩) ∧
    (∀ page imgUrl m, w.fetchPage e.link = Except.ok page → page.ogImage = some imgUrl →
      w.fetchImage imgUrl = Except.error m →
      get_og_image w e.link = Except.error m ∧
      process_entry w e dests dry sig = ⟨[], [], some (RunError.fetchFail m)⟩) := by
  refine ⟨?_, ?_, ?_⟩
  · intro page hp hog
    have hg : get_og_image w e.link = Except.ok none := by
      unfold get_og_image
      simp only [hp, hog]
    refine ⟨hg, ?_⟩
    unfold process_entry
    rw [hg]
  · intro m hp
    have hg : get_og_image w e.link = Except.error m := by
      unfold get_og_image
      simp only [hp]
    refine ⟨hg, ?_⟩
    unfold process_entry
    rw [hg]
  · intro page imgUrl m hp hog hi
    have hg : get_og_image w e.link = Except.error m := by
      unfold get_og_image
      simp only [hp, hog, hi]
    refine ⟨hg, ?_⟩
    unfold process_entry
    rw [hg]

/-- Witness for the amended C5: in `wDemo` the page has no og:image tag, so
extraction yields nothing and the entry is dispatched with the bare command;
in `wTimeout` the page fetch error propagates. -/
theorem C5_preview_failure_amended_witness :
    (get_og_image wDemo entry1.link = Except.ok none ∧
      process_entry wDemo entry1 [destPhone] false none =
        runDests wDemo (entryCmd none entry1 "") false [destPhone]) ∧
    (get_og_image wTimeout entry1.link = Except.error "timeout" ∧
      process_entry wTimeout entry1 [destPhone] false none =
        ⟨[], [], some (RunError.fetchFail "timeout")⟩) :=
  ⟨(C5_preview_failure_amended wDemo entry1 [destPhone] false none).1 ⟨none⟩ rfl rfl,
    (C5_preview_failure_amended wTimeout entry1 [destPhone] false none).2.1 "timeout" rfl⟩

def entryA : Entry := ⟨"LA", "TA", "DA", "PA", 2⟩

def entryB : Entry := ⟨"LB", "TB", "DB", "PB", 1⟩

/-- A world whose date parser disagrees with the feed library's native keys:
entryB's native key (1) sorts before entryA's (2), yet entryB's re-parsed
instant (20) is later than entryA's (10). -/
def wMix : World where
  fetchPage := fun _ => .ok ⟨none⟩
  fetchImage := fun _ => .error "unused"
  guessExt := fun _ => none
  tempFile := fun s => s
  runCmd := fun _ => true
  parseDate := fun s => if s == "PA" then 10 else if s == "PB" then 20 else 0

/-- Claim C6 counterexample: the loop iterates over
`sorted(d.entries, key=lambda x: x.published_parsed)` — the feed library's
native key — not over entries sorted by the re-parsed instant.  With native
keys ordered oppositely to the re-parsed instants, the entries are processed
and notified in strictly descending publication-date order. -/
theorem C6_counterexample :
    sortEntries [entryA, entryB] = [entryB, entryA] ∧
    (main_run wMix [destPhone] none none false none
      ⟨200, [entryA, entryB], none, none⟩).processed = [entryB, entryA] ∧
    (main_run wMix [destPhone] none none false none
      ⟨200, [entryA, entryB], none, none⟩).notified = [entryB, entryA] ∧
    wMix.parseDate entryB.published > wMix.parseDate entryA.published ∧
    ¬ List.Pairwise (fun a b => wMix.parseDate a.published ≤ wMix.parseDate b.published)
      (main_run wMix [destPhone] none none false none
        ⟨200, [entryA, entryB], none, none⟩).processed := by
  refine ⟨by decide, by decide, by decide, by decide, by decide⟩

/-- Claim C6 as amended: entries are processed in ascending order of the feed
library's native parsed-time key (`published_parsed`), by a stable sort —
ties and pairs already in key order keep their feed order — and the re-parsed
instant is used only for eligibility and watermark comparisons; whenever the
native-key order is consistent with the re-parsed instants, the notified
entries are in non-decreasing publication-date order. -/
theorem C6_ordering_amended (w : World) (dests : List Dest) (sig : Option String)
    (fl : Option DateTime) (skip : Bool) (sf : Option PersistedState) (d : FeedDoc)
    (hcons : ∀ a ∈ d.entries, ∀ b ∈ d.entries, keyLe a b →
      w.parseDate a.published ≤ w.parseDate b.published) :
    List.Perm (sortEntries d.entries) d.entries ∧
    List.Pairwise keyLe (sortEntries d.entries) ∧
    (∀ a b : Entry, keyLe a b → List.Sublist [a, b] d.entries →
      List.Sublist [a, b] (sortEntries d.entries)) ∧
    List.Pairwise (fun a b => w.parseDate a.published ≤ w.parseDate b.published)
      (main_run w dests sig fl skip sf d).notified := by
  refine ⟨List.perm_insertionSort keyLe d.entries, List.sorted_insertionSort keyLe d.entries,
    ?_, ?_⟩
  · intro a b hab hsub
    exact List.pair_sublist_insertionSort hab hsub
  · have hsorted : List.Pairwise (fun a b => w.parseDate a.published ≤ w.parseDate b.published)
        (sortEntries d.entries) :=
      (List.sorted_insertionSort keyLe d.entries).imp_of_mem
        (fun ha hb hr =>
          hcons _ ((List.perm_insertionSort keyLe d.entries).mem_iff.mp ha) _
            ((List.perm_insertionSort keyLe d.entries).mem_iff.mp hb) hr)
    exact hsorted.sublist (main_run_notified_sub w dests sig fl skip sf d)

/-- Witness for the amended C6 on a consistent input: keys and dates agree,
the sort is the identity permutation here, and the notified dates ascend. -/
theorem C6_ordering_amended_witness :
    List.Perm (sortEntries docDemo.entries) docDemo.entries ∧
    List.Pairwise keyLe (sortEntries docDemo.entries) ∧
    (∀ a b : Entry, keyLe a b → List.Sublist [a, b] docDemo.entries →
      List.Sublist [a, b] (sortEntries docDemo.entries)) ∧
    List.Pairwise (fun a b => wDemo.parseDate a.published ≤ wDemo.parseDate b.published)
      (main_run wDemo [destPhone] none none false none docDemo).notified :=
  C6_ordering_amended wDemo [destPhone] none none false none docDemo (by decide)

/-- Claim C7: a destination with `enabled == false` is skipped; one with none
of phone/username/group is silently skipped; each remaining destination
contributes exactly one invocation whose identifying argument follows the
precedence phone over username over group; and the scenario
`[{"group": "G"}, {"enabled": false, "phone": "+1"}]` yields exactly one
invocation, addressed to group G. -/
theorem C7_destination_selection (w : World) (cmd0 : String) :
    (∀ (en : Option Bool) (p : String) (u g : Option String),
      destPart ⟨en, some p, u, g⟩ = some p) ∧
    (∀ (en : Option Bool) (u : String) (g : Option String),
      destPart ⟨en, none, some u, g⟩ = some ("-u " ++ u)) ∧
    (∀ (en : Option Bool) (g : String), destPart ⟨en, none, none, some g⟩ = some ("-g " ++ g)) ∧
    (∀ en : Option Bool, destPart ⟨en, none, none, none⟩ = none) ∧
    (∀ ds : List Dest, (runDests w cmd0 true ds).invocations =
      ds.filterMap (fun dd =>
        if dd.enabled.getD true then (destPart dd).map (fun dp => cmd0 ++ " " ++ dp)
        else none)) ∧
    ((∀ c, w.runCmd c = true) → ∀ ds : List Dest,
      (runDests w cmd0 false ds).invocations =
        ds.filterMap (fun dd =>
          if dd.enabled.getD true then (destPart dd).map (fun dp => cmd0 ++ " " ++ dp)
          else none)) ∧
    (process_entry wDemo entry1
        [⟨none, none, none, some "G"⟩, ⟨some false, some "+1", none, none⟩] false none =
      ⟨[entryCmd none entry1 "" ++ " -g G"], [entryCmd none entry1 "" ++ " -g G"], none⟩) := by
  refine ⟨fun en p u g => ?_, fun en u g => rfl, fun en g => rfl, fun en => rfl, ?_, ?_, ?_⟩
  · cases u <;> cases g <;> rfl
  · intro ds
    exact runDests_inv_filterMap w cmd0 true ds (runDests_dry w cmd0 ds).2
  · intro hall ds
    have h := runDests_allOk w cmd0 ds hall
    rw [h]
    exact runDests_inv_filterMap w cmd0 true ds (runDests_dry w cmd0 ds).2
  · decide

/-- Witness for C7: the all-success implication instantiated in `wDemo`, whose
`runCmd` always succeeds. -/
theorem C7_destination_selection_witness :
    (runDests wDemo "c0" false
        [⟨none, none, none, some "G"⟩, ⟨some false, some "+1", none, none⟩]).invocations =
      [⟨none, none, none, some "G"⟩, ⟨some false, some "+1", none, none⟩].filterMap
        (fun dd : Dest =>
          if dd.enabled.getD true then (destPart dd).map (fun dp => "c0" ++ " " ++ dp)
          else none) :=
  (C7_destination_selection wDemo "c0").2.2.2.2.2.1 (fun _ => rfl)
    [⟨none, none, none, some "G"⟩, ⟨some false, some "+1", none, none⟩]

/-- Claim C8: in a completed run, the final state write updates each
cache-token half only when the response carries a (truthy) value for it; a
half the response omits (or reports empty) keeps the previously stored
value. -/
theorem C8_cache_token_halves (w : World) (dests : List Dest) (sig : Option String)
    (fl : Option DateTime) (skip : Bool) (sf : Option PersistedState) (d : FeedDoc)
    (h304 : d.status ≠ 304)
    (herr : (main_run w dests sig fl skip sf d).error = none) :
    ((main_run w dests sig fl skip sf d).writes.getLast?).map PersistedState.etag =
      some (if pyTruthy d.etag then d.etag else (loadState sf).etag) ∧
    ((main_run w dests sig fl skip sf d).writes.getLast?).map PersistedState.modified =
      some (match d.modifiedRaw with
        | some s => if s == "" then (loadState sf).modified else some (w.parseDate s)
        | none => (loadState sf).modified) := by
  cases herr2 : (loopOf w dests sig fl skip sf d).error with
  | some err =>
    rw [main_run_err w dests sig fl skip sf d err h304 herr2] at herr
    simp at herr
  | none =>
    rw [main_run_ok w dests sig fl skip sf d h304 herr2]
    simp only [List.getLast?_concat, Option.map_some']
    obtain ⟨hse, hsm⟩ := (processLoop_tokens w dests skip sig (loadState sf).lped fl
      (loadState sf) (sortEntries d.entries)).1
    constructor
    · rw [tokUpdate_etag]
      unfold loopOf
      rw [hse]
    · rw [tokUpdate_modified]
      unfold loopOf
      rw [hsm]

/-- Witness for C8: the response carries etag "E2" but no last-modified; the
final write takes the new etag and keeps the stored modified value 7. -/
theorem C8_cache_token_halves_witness :
    ((main_run wDemo [destPhone] none none false (some ⟨some 5, some "E1", some 7⟩)
        docDemo).writes.getLast?).map PersistedState.etag =
      some (if pyTruthy docDemo.etag then docDemo.etag
        else (loadState (some ⟨some 5, some "E1", some 7⟩)).etag) ∧
    ((main_run wDemo [destPhone] none none false (some ⟨some 5, some "E1", some 7⟩)
        docDemo).writes.getLast?).map PersistedState.modified =
      some (match docDemo.modifiedRaw with
        | some s => if s == "" then (loadState (some ⟨some 5, some "E1", some 7⟩)).modified
          else some (wDemo.parseDate s)
        | none => (loadState (some ⟨some 5, some "E1", some 7⟩)).modified) :=
  C8_cache_token_halves wDemo [destPhone] none none false (some ⟨some 5, some "E1", some 7⟩)
    docDemo (by decide) (by decide)

/-- Claim C9: loading state when no prior file exists yields the empty state
(absent watermark, absent cache tokens) rather than an error; such a first
run selects exactly the entries strictly newer than the optional floor date,
or every entry when no floor is given. -/
theorem C9_first_run (w : World) (dests : List Dest) (sig : Option String) (skip : Bool)
    (d : FeedDoc) (flClock : Option Int)
    (h304 : d.status ≠ 304)
    (herr : (main_run w dests sig (flClock.map (fun c => DateTime.mk c none)) skip none d).error
      = none) :
    loadState none = ⟨none, none, none⟩ ∧
    (main_run w dests sig (flClock.map (fun c => DateTime.mk c none)) skip none d).processed =
      (sortEntries d.entries).filter (specEligible w none flClock) := by
  exact ⟨rfl, main_run_processed_filter w dests sig skip none d flClock h304 herr⟩

/-- Witness for C9: first run with floor 15 selects only the entry dated 20. -/
theorem C9_first_run_witness :
    loadState none = ⟨none, none, none⟩ ∧
    (main_run wDemo [destPhone] none ((some (15 : Int)).map (fun c => DateTime.mk c none)) false
        none docDemo).processed =
      (sortEntries docDemo.entries).filter (specEligible wDemo none (some 15)) :=
  C9_first_run wDemo [destPhone] none false docDemo (some 15) (by decide) (by decide)

/-- Claim C10: with dry-run mode (skip_signal) enabled no external command is
executed, yet — whenever the external command would have succeeded — the
watermark writes, the notified set and the final state are identical to the
real run's; consequently an entry notified by a dry run is never selected
again by any subsequent run that starts from the dry run's final state. -/
theorem C10_dry_run (w : World) (dests dests2 : List Dest) (sig sig2 : Option String)
    (fl fl2 : Option DateTime) (sf : Option PersistedState) (d d2 : FeedDoc) (skip2 : Bool) :
    (main_run w dests sig fl true sf d).executed = [] ∧
    ((∀ c, w.runCmd c = true) →
      (main_run w dests sig fl true sf d).writes = (main_run w dests sig fl false sf d).writes ∧
      (main_run w dests sig fl true sf d).notified =
        (main_run w dests sig fl false sf d).notified ∧
      (main_run w dests sig fl true sf d).state = (main_run w dests sig fl false sf d).state) ∧
    (∀ e ∈ (main_run w dests sig fl true sf d).notified,
      e ∉ (main_run w dests2 sig2 fl2 skip2
        (some (main_run w dests sig fl true sf d).state) d2).processed) := by
  refine ⟨?_, ?_, ?_⟩
  · by_cases h304 : d.status = 304
    · rw [main_run_304 w dests sig fl true sf d h304]
    · cases herr : (loopOf w dests sig fl true sf d).error with
      | some err =>
        rw [main_run_err w dests sig fl true sf d err h304 herr]
        exact processLoop_dry w dests sig (loadState sf).lped fl (loadState sf)
          (sortEntries d.entries)
      | none =>
        rw [main_run_ok w dests sig fl true sf d h304 herr]
        exact processLoop_dry w dests sig (loadState sf).lped fl (loadState sf)
          (sortEntries d.entries)
  · intro hall
    by_cases h304 : d.status = 304
    · rw [main_run_304 w dests sig fl true sf d h304, main_run_304 w dests sig fl false sf d h304]
      exact ⟨rfl, rfl, rfl⟩
    · obtain ⟨i1, i2, i3, i4, i5, i6⟩ := processLoop_allOk w dests sig (loadState sf).lped fl
        (loadState sf) (sortEntries d.entries) hall
      cases herr : (loopOf w dests sig fl true sf d).error with
      | some err =>
        have herrF : (loopOf w dests sig fl false sf d).error = some err := by
          unfold loopOf at herr ⊢
          rw [i6]
          exact herr
        rw [main_run_err w dests sig fl true sf d err h304 herr,
          main_run_err w dests sig fl false sf d err h304 herrF]
        unfold loopOf
        exact ⟨i2.symm, i4.symm, i1.symm⟩
      | none =>
        have herrF : (loopOf w dests sig fl false sf d).error = none := by
          unfold loopOf at herr ⊢
          rw [i6]
          exact herr
        rw [main_run_ok w dests sig fl true sf d h304 herr,
          main_run_ok w dests sig fl false sf d h304 herrF]
        unfold loopOf
        refine ⟨?_, i4.symm, ?_⟩
        · rw [i2, i1]
        · rw [i1]
  · intro e he hmem
    have h1 : optLe (some (w.parseDate e.published))
        (main_run w dests sig fl true sf d).state.lped := by
      rw [main_run_state_lped w dests sig fl true sf d]
      exact mem_le_foldl_wmAfter _ (List.mem_map_of_mem _ he)
    have h2 := main_run_processed_elig w dests2 sig2 fl2 skip2
      (some (main_run w dests sig fl true sf d).state) d2 e hmem
    exact optLt_optLe_absurd (eligible_optLt h2) h1

/-- Witness for C10: a dry run over the demo feed executes nothing, matches
the real run's writes and state (all commands succeed in `wDemo`), and the
entry it covered is not selected by a following real run started from its
final state. -/
theorem C10_dry_run_witness :
    (main_run wDemo [destPhone] none none true none docDemo).executed = [] ∧
    ((main_run wDemo [destPhone] none none true none docDemo).writes =
        (main_run wDemo [destPhone] none none false none docDemo).writes ∧
      (main_run wDemo [destPhone] none none true none docDemo).notified =
        (main_run wDemo [destPhone] none none false none docDemo).notified ∧
      (main_run wDemo [destPhone] none none true none docDemo).state =
        (main_run wDemo [destPhone] none none false none docDemo).state) ∧
    entry1 ∉ (main_run wDemo [destPhone] none none false
      (some (main_run wDemo [destPhone] none none true none docDemo).state)
      docDemo).processed :=
  ⟨(C10_dry_run wDemo [destPhone] [destPhone] none none none none none docDemo docDemo
      false).1,
    (C10_dry_run wDemo [destPhone] [destPhone] none none none none none docDemo docDemo
      false).2.1 (fun _ => rfl),
    (C10_dry_run wDemo [destPhone] [destPhone] none none none none none docDemo docDemo
      false).2.2 entry1 (by decide)⟩
